import Mathlib

/-!
Shallow embedding of the go-netaddr CIDR range/partition engine
(src/ipaddress.go, src/ipnetwork.go, src/iprange.go).

Addresses are byte sequences tagged with a protocol version; address
numbers (the Go IPNumber, a big.Int) are embedded as Int.  Every
definition follows the corresponding Go function; comments point at the
source function each definition embeds.
-/

set_option autoImplicit false
set_option maxRecDepth 100000
set_option linter.dupNamespace false

namespace NetAddr

/-- The two protocol versions.  Go keeps them as the two singleton values
IPv4 and IPv6 of the Version struct (src/ipaddress.go, lines 20-40). -/
inductive Version where
  | v4
  | v6
deriving DecidableEq, Repr

/-- Version.bitLength field: 32 for IPv4, 128 for IPv6. -/
def Version.bitLength : Version → Nat
  | .v4 => 32
  | .v6 => 128

/-- Version.length field: the byte width, 4 for IPv4, 16 for IPv6. -/
def Version.byteLength : Version → Nat
  | .v4 => 4
  | .v6 => 16

/-- Version.max field: the greatest representable address number,
2^32 - 1 for IPv4 and 2^128 - 1 for IPv6. -/
def Version.maxAddr (v : Version) : Int :=
  2 ^ v.bitLength - 1

/-- IPAddress (src/ipaddress.go line 47): a byte sequence (the net.IP
value, big-endian, each byte below 256) together with the stored version
tag.  The tag may be absent, as it is for addresses Go builds with a nil
version pointer. -/
structure IPAddress where
  bytes : List Nat
  version : Option Version
deriving DecidableEq, Repr

/-- IPAddress.ToInt (src/ipaddress.go lines 214-218): big.Int.SetBytes,
the big-endian value of the byte sequence. -/
def IPAddress.ToInt (ip : IPAddress) : Int :=
  ip.bytes.foldl (fun (acc : Int) (b : Nat) => acc * 256 + (b : Int)) 0

/-- IPAddress.Version (src/ipaddress.go lines 145-153): the version
computed from the byte length, nil for any other length. -/
def IPAddress.computedVersion (ip : IPAddress) : Option Version :=
  if ip.bytes.length = 16 then some .v6
  else if ip.bytes.length = 4 then some .v4
  else none

/-- A well-formed address: bytes below 256 and a byte length matching the
stored version tag, as holds for every address the library constructs. -/
def IPAddress.WF (ip : IPAddress) : Prop :=
  (∀ b ∈ ip.bytes, b < 256) ∧
    ((ip.bytes.length = 4 ∧ ip.version = some .v4) ∨
      (ip.bytes.length = 16 ∧ ip.version = some .v6))

instance (ip : IPAddress) : Decidable ip.WF := by
  unfold IPAddress.WF; infer_instance

/-- big.Int.Bytes with explicit fuel: the minimal big-endian byte
sequence of a natural number (empty for zero).  The fuel argument makes
the recursion structural; fuel n always suffices. -/
def natBytesAux : Nat → Nat → List Nat
  | 0, _ => []
  | fuel + 1, n => if n = 0 then [] else natBytesAux fuel (n / 256) ++ [n % 256]

/-- big.Int.Bytes: minimal big-endian byte sequence of a natural number. -/
def natBytes (n : Nat) : List Nat :=
  natBytesAux n n

/-- ValidIPV4 (src/ipaddress.go lines 187-205), translated exactly: true
for byte lengths 4 and 0; false for any length other than 16; for length
16 the flag loop leaves the flag true exactly when no byte among the
first 12 is zero.  (The inline comment in the source says the check is
meant to detect a zero IPv4-only prefix, which is the opposite of what
the loop computes.) -/
def ValidIPV4 (ipBytes : List Nat) : Bool :=
  if ipBytes.length = 4 ∨ ipBytes.length = 0 then true
  else if ipBytes.length ≠ 16 then false
  else
    ipBytes.enum.foldl
      (fun flag iv => if iv.2 = 0 ∧ iv.1 ≤ 16 - 4 - 1 then false else flag) true

/-- The copy loop of ToIPAddress (src/ipaddress.go lines 243-250): fill a
zeroed buffer of the given length from the tail of the source bytes,
stopping when the source runs out.  When the source is longer than the
buffer only its last bytes survive. -/
def copyTail (len : Nat) (src : List Nat) : List Nat :=
  List.replicate (len - src.length) 0 ++ src.drop (src.length - len)

/-- IPNumber.ToIPAddress (src/ipaddress.go lines 227-255): take the
minimal bytes of the number, classify them with ValidIPV4, and copy them
into a fresh 4-byte or 16-byte address tagged accordingly. -/
def ToIPAddress (num : Int) : IPAddress :=
  let bigintBytes := natBytes num.natAbs
  if ValidIPV4 bigintBytes then
    { bytes := copyTail 4 bigintBytes, version := some .v4 }
  else
    { bytes := copyTail 16 bigintBytes, version := some .v6 }

/-- ip.Version().max as Increment reads it; a nil computed version would
make Go dereference a nil pointer, which no well-formed address reaches. -/
def versionMax : Option Version → Int
  | some v => v.maxAddr
  | none => 0

/-- IPAddress.Increment (src/ipaddress.go lines 166-179).  Go mutates the
receiver in place and returns it; the embedding returns the pair
(result, receiver after the call).  A result of none is the
ErrorAddressOutOFBounds return, in which case the receiver is untouched.
On success Go overwrites only the IP bytes, keeping the version tag. -/
def IPAddress.Increment (ip : IPAddress) (val : Int) : Option IPAddress × IPAddress :=
  let ipNum := ip.ToInt
  if ipNum = 0 then (some ip, ip)
  else
    let sum := ipNum + val
    if 0 ≤ sum ∧ sum ≤ versionMax ip.computedVersion then
      let mutated : IPAddress := { bytes := (ToIPAddress sum).bytes, version := ip.version }
      (some mutated, mutated)
    else (none, ip)

/-- MinAddress (src/ipaddress.go lines 404-409). -/
def MinAddress (addr1 addr2 : IPAddress) : IPAddress :=
  if addr1.ToInt ≤ addr2.ToInt then addr1 else addr2

/-- IPMask (src/ipnetwork.go line 85): a CIDR mask, recorded as the pair
NewMask is built from, the number of leading one bits and the total bit
width (net.CIDRMask ones bits).  Every mask the verified code paths
construct satisfies ones ≤ bits. -/
structure IPMask where
  ones : Nat
  bits : Nat
deriving DecidableEq, Repr

/-- The numeric value of the mask bytes, used by IPMask.Equals and
IPMask.LessThan (src/ipnetwork.go lines 89-99): ones leading one bits
followed by (bits - ones) zero bits. -/
def IPMask.value (m : IPMask) : Int :=
  2 ^ m.bits - 2 ^ (m.bits - m.ones)

/-- IPMask.Length (src/ipnetwork.go lines 339-342): the number of
addresses in a block with this mask, 2^(bits - ones). -/
def IPMask.Length (m : IPMask) : Int :=
  2 ^ (m.bits - m.ones)

/-- IPNetwork (src/ipnetwork.go lines 14-20): the start address number,
the version, and the mask.  (The iteratorIndex field takes part in no
operation and is omitted.) -/
structure IPNetwork where
  start : Int
  version : Version
  Mask : IPMask
deriving DecidableEq, Repr

/-- IPNetwork.Length (src/ipnetwork.go line 344). -/
def IPNetwork.Length (nw : IPNetwork) : Int :=
  nw.Mask.Length

/-- IPNetwork.First (src/ipnetwork.go lines 75-77): the start number
converted back to an address through ToIPAddress. -/
def IPNetwork.First (nw : IPNetwork) : IPAddress :=
  ToIPAddress nw.start

/-- IPNetwork.Last (src/ipnetwork.go lines 78-83):
start + Length - 1 converted to an address through ToIPAddress. -/
def IPNetwork.Last (nw : IPNetwork) : IPAddress :=
  ToIPAddress (nw.start + nw.Length - 1)

/-- IPNetwork.PrefixLength (src/ipnetwork.go lines 253-256): the ones
count of the mask, as Mask.Size returns it for a canonical CIDR mask. -/
def IPNetwork.PrefixLength (nw : IPNetwork) : Nat :=
  nw.Mask.ones

/-- The spec-level first address number of a network (section 3 of the
spec: First() = start). -/
def mathFirst (nw : IPNetwork) : Int :=
  nw.start

/-- The spec-level last address number of a network (section 3 of the
spec: Last() = start + blockLength - 1). -/
def mathLast (nw : IPNetwork) : Int :=
  nw.start + nw.Length - 1

/-- newNetworkFromIP (src/ipnetwork.go lines 259-266): a network from an
address with the full-width all-ones mask. -/
def newNetworkFromIP (version : Version) (value : IPAddress) : IPNetwork :=
  { start := value.ToInt
    version := version
    Mask := { ones := version.bitLength, bits := version.bitLength } }

/-- The masking step of newNetworkFromBoundaries (src/ipnetwork.go line
63): ipNumber.And(NewIPNumber(1).Lsh(width - prefixlen).Neg()), a bitwise
AND with -(2^k) in the twos-complement semantics of big.Int, which for
the non-negative ipNumber of the loop clears its low k bits.  Written
through toNat so the definition evaluates; clearLow_eq_land below proves
it agrees with Int.land on every non-negative input. -/
def clearLow (k : Nat) (x : Int) : Int :=
  Int.ofNat (2 ^ k * (x.toNat / 2 ^ k))

/-- The search loop of newNetworkFromBoundaries (src/ipnetwork.go lines
60-64): while prefixlen > 0 and ipNumber > lowestIPNumber, decrement
prefixlen and clear the low (width - prefixlen) bits of ipNumber.
Returns the final (prefixlen, ipNumber). -/
def boundariesLoop (lowest : Int) (width : Nat) : Nat → Int → Nat × Int
  | 0, ipNumber => (0, ipNumber)
  | prefixlen + 1, ipNumber =>
    if lowest < ipNumber then
      boundariesLoop lowest width prefixlen (clearLow (width - prefixlen) ipNumber)
    else (prefixlen + 1, ipNumber)

/-- newNetworkFromBoundaries (src/ipnetwork.go lines 49-73).  none is the
version-mismatch error; a nil computed version cannot arise from the
well-formed addresses the claims quantify over (Go reads the loop width
from the version tag, which on every address the library builds equals
the computed version used here). -/
def newNetworkFromBoundaries (first last : IPAddress) : Option IPNetwork :=
  match first.computedVersion, last.computedVersion with
  | some v1, some v2 =>
    if v1 = v2 then
      let width := v1.bitLength
      let r := boundariesLoop first.ToInt width width last.ToInt
      some { start := r.2, version := v1, Mask := { ones := r.1, bits := width } }
    else none
  | _, _ => none

/-- The Partition result type (src/ipnetwork.go lines 148-152).  The Go
Partition field is a possibly nil pointer, hence the Option. -/
structure Partition where
  Before : List IPNetwork
  Partition : Option IPNetwork
  After : List IPNetwork
deriving DecidableEq, Repr

/-- One sibling network emitted by the Partition loop (src/ipnetwork.go
lines 211-212 and 216-217): newNetworkFromIP at the half boundary, its
mask then overwritten with NewMask(newPrefixLength, version.bitLength). -/
def emittedNetwork (version : Version) (p : Nat) (addr : Int) : IPNetwork :=
  { newNetworkFromIP version (ToIPAddress addr) with
    Mask := { ones := p, bits := version.bitLength } }

/-- The bisection loop of IPNetwork.Partition (src/ipnetwork.go lines
203-234).  w is the target module width, e the exclude prefix length,
exFirst the value exclude.First().ToInt() recomputed identically at each
iteration, version the exclude version.  The loop carries the current
prefix length p (newPrefixLength), the half boundaries iLower and
iUpper, and the networks emitted so far.  When exFirst is at or above
iUpper the lower half is emitted into left and the upper half is the
matched region, otherwise the upper half is emitted into right and the
lower half is matched.  The fuel argument makes the recursion
structural; Partition passes fuel w + 2, which the loop never exhausts
(partitionLoop_spec). -/
def partitionLoop (w e : Nat) (exFirst : Int) (version : Version) :
    Nat → Nat → Int → Int → List IPNetwork → List IPNetwork →
    Option (List IPNetwork × List IPNetwork)
  | 0, _, _, _, _, _ => none
  | fuel + 1, p, iLower, iUpper, left, right =>
    if e < p then some (left, right)
    else
      let left2 := if iUpper ≤ exFirst then left ++ [emittedNetwork version p iLower] else left
      let right2 := if iUpper ≤ exFirst then right else right ++ [emittedNetwork version p iUpper]
      let matched := if iUpper ≤ exFirst then iUpper else iLower
      if w < p + 1 then some (left2, right2)
      else
        partitionLoop w e exFirst version fuel (p + 1) matched
          (matched + 2 ^ (w - (p + 1))) left2 right2

/-- IPNetwork.Partition (src/ipnetwork.go lines 154-242).  The three
guard cases in source order, then the general bisection; right-side
results are reversed before returning.  The none arm of the match is the
fuel-exhaustion artifact of the embedding, proved unreachable in
partitionLoop_spec. -/
def IPNetwork.Partition (nw exclude : IPNetwork) : Partition :=
  if (exclude.Last).ToInt < (nw.First).ToInt then
    { Before := [], Partition := none, After := [nw] }
  else if (nw.Last).ToInt < (exclude.First).ToInt then
    { Before := [nw], Partition := none, After := [] }
  else if exclude.PrefixLength ≤ nw.PrefixLength then
    { Before := [], Partition := some nw, After := [] }
  else
    let targetModuleWidth := nw.version.bitLength
    let newPrefixLength := nw.PrefixLength + 1
    let targetFirst := (nw.First).ToInt
    let version := exclude.version
    let iLower := targetFirst
    let iUpper := targetFirst + 2 ^ (targetModuleWidth - newPrefixLength)
    match partitionLoop targetModuleWidth exclude.PrefixLength
        ((exclude.First).ToInt) version (targetModuleWidth + 2)
        newPrefixLength iLower iUpper [] [] with
    | some (left, right) =>
      { Before := left, Partition := some exclude, After := right.reverse }
    | none => { Before := [], Partition := none, After := [] }

/-- IPRangeToCIDRS (src/ipnetwork.go lines 268-309).  Go mutates the
start and stop addresses in place through Increment; the embedding
returns (result, start after the call, stop after the call).  A first
component of none covers the error returns and the nil-pointer
dereference Go would reach if the absorbed overflow of step 3 ever fired
(it cannot: that branch needs stop below the version maximum). -/
def IPRangeToCIDRS (version : Version) (start stop : IPAddress) :
    Option (List IPNetwork) × IPAddress × IPAddress :=
  match newNetworkFromBoundaries start stop with
  | none => (none, start, stop)
  | some subnet0 =>
    -- step 2: the covering subnet overshoots low
    let low :=
      if (subnet0.First).ToInt < start.ToInt then
        match start.Increment (-1) with
        | (none, _) => none
        | (some _, start2) =>
          let exclude := newNetworkFromIP version start2
          let afterPartition := (subnet0.Partition exclude).After
          -- cidrs receives the After list, then its last entry (when one
          -- exists) is popped off and becomes the new working subnet
          match afterPartition.getLast? with
          | some lastNw => some (afterPartition.dropLast, lastNw, start2)
          | none => some (afterPartition, subnet0, start2)
      else some ([], subnet0, start)
    match low with
    | none => (none, start, stop)
    | some (cidrs, subnet, start2) =>
      -- step 3: the working subnet overshoots high
      if stop.ToInt < (subnet.Last).ToInt then
        match stop.Increment 1 with
        | (some excludeAddress, stop2) =>
          let exclude := newNetworkFromIP version excludeAddress
          (some (cidrs ++ (subnet.Partition exclude).Before), start2, stop2)
        | (none, stop2) => (none, start2, stop2)
      else (some (cidrs ++ [subnet]), start2, stop)

/-- IPRange (src/iprange.go lines 5-10).  The network pointer may be nil,
hence the Option. -/
structure IPRange where
  version : Version
  first : IPAddress
  last : IPAddress
  network : Option IPNetwork
deriving DecidableEq, Repr

/-- IPNetwork.Equal (src/ipnetwork.go lines 346-357): version identity,
mask numeric value, then start. -/
def IPNetwork.EqualB (nw other : IPNetwork) : Bool :=
  if nw.version ≠ other.version then false
  else if nw.Mask.value ≠ other.Mask.value then false
  else if nw.start ≠ other.start then false
  else true

/-- IPNetwork.LessThan (src/ipnetwork.go lines 359-370): by version byte
length, then start, then mask numeric value. -/
def IPNetwork.LessThanB (nw other : IPNetwork) : Bool :=
  if nw.version ≠ other.version then
    decide (nw.version.byteLength < other.version.byteLength)
  else if nw.start ≠ other.start then decide (nw.start < other.start)
  else if nw.Mask.value ≠ other.Mask.value then
    decide (nw.Mask.value < other.Mask.value)
  else false

/-- network.Equal lifted to the nullable pointers of IPRange; a nil
network would make Go dereference nil, which the MergeCIDRs rows (all
built with a non-nil network) never reach. -/
def optionNetworkEqual : Option IPNetwork → Option IPNetwork → Bool
  | some a, some b => a.EqualB b
  | _, _ => false

/-- network.LessThan lifted to the nullable pointers of IPRange. -/
def optionNetworkLess : Option IPNetwork → Option IPNetwork → Bool
  | some a, some b => a.LessThanB b
  | _, _ => false

/-- ByIPRanges.Less (src/iprange.go lines 36-52): version, then first,
then last, then network.  Version inequality is pointer inequality of the
two singletons, so value inequality; address equality and order go
through ToInt (src/ipaddress.go lines 418-453). -/
def ByIPRangesLess (a b : IPRange) : Bool :=
  if a.version ≠ b.version then decide (a.version.byteLength < b.version.byteLength)
  else if a.first.ToInt ≠ b.first.ToInt then decide (a.first.ToInt < b.first.ToInt)
  else if a.last.ToInt ≠ b.last.ToInt then decide (a.last.ToInt < b.last.ToInt)
  else if ¬ optionNetworkEqual a.network b.network then
    optionNetworkLess a.network b.network
  else false

/-- The &IPNetwork{} zero-value placeholder MergeCIDRs writes into a
merged row (src/ipnetwork.go line 129); its fields are never read. -/
def emptyIPNetwork : IPNetwork :=
  { start := 0, version := .v4, Mask := { ones := 0, bits := 0 } }

/-- ranges[i] with the bounds semantics of a Go slice index: none means
the access is out of bounds and the program panics. -/
def rangesGet (l : List IPRange) (i : Int) : Option IPRange :=
  if h : 0 ≤ i ∧ i.toNat < l.length then some (l.get ⟨i.toNat, h.2⟩) else none

/-- The backward merge loop of MergeCIDRs (src/ipnetwork.go lines
119-131): for i from len(ranges)-1 down while i ≥ 0, read ranges[i] and
ranges[i-1] and overwrite ranges[i-1] when the two rows merge.  A result
of none records an out-of-bounds slice access (a Go panic).  The fuel
makes the recursion structural; MergeCIDRs passes length + 1, enough for
every iteration the loop can perform. -/
def mergeLoopAux : Nat → List IPRange → Int → Option (List IPRange)
  | 0, ranges, _ => some ranges
  | fuel + 1, ranges, i =>
    if 0 ≤ i then
      match rangesGet ranges i, rangesGet ranges (i - 1) with
      | some current, some next =>
        let ranges2 :=
          if current.version = next.version ∧ current.first.ToInt < next.last.ToInt then
            ranges.set (i - 1).toNat
              { version := current.version
                first := current.last
                last := MinAddress next.first current.first
                network := some emptyIPNetwork }
          else ranges
        mergeLoopAux fuel ranges2 (i - 1)
      | _, _ => none
    else some ranges

/-- IPSet (src/ipnetwork.go line 313): a list of possibly nil network
pointers. -/
def IPSet := List (Option IPNetwork)

/-- The collection loop body of MergeCIDRs (src/ipnetwork.go lines
133-143): a nil network row appends the nil pointer itself; any other row
is converted back through IPRangeToCIDRS, whose list is appended (on
error the appended subnets slice is nil, so nothing is appended). -/
def collectRange (value : IPRange) : List (Option IPNetwork) :=
  if value.network = none then [none]
  else ((IPRangeToCIDRS value.version value.first value.last).1.getD []).map some

/-- One insertion step of the sort standing in for sort.Sort. -/
def insertRange (a : IPRange) : List IPRange → List IPRange
  | [] => [a]
  | b :: l => if ByIPRangesLess a b then a :: b :: l else b :: insertRange a l

/-- sort.Sort(ByIPRanges(ranges)) (src/ipnetwork.go line 117), embedded
as an insertion sort under ByIPRanges.Less: the result lists the rows in
nondecreasing Less order, which is all sort.Sort guarantees (its choice
among Less-ties is unspecified). -/
def sortRanges : List IPRange → List IPRange
  | [] => []
  | a :: l => insertRange a (sortRanges l)

/-- MergeCIDRs (src/ipnetwork.go lines 103-146); none records the
out-of-bounds panic of the backward loop. -/
def MergeCIDRs (cidrs : List IPNetwork) : Option (List (Option IPNetwork)) :=
  let ranges := cidrs.map fun cidr =>
    { version := cidr.version, first := cidr.First, last := cidr.Last,
      network := some cidr : IPRange }
  let sorted := sortRanges ranges
  match mergeLoopAux (sorted.length + 1) sorted ((sorted.length : Int) - 1) with
  | none => none
  | some rs => some (rs.foldl (fun merged value => merged ++ collectRange value) [])

/-- The spec-level reading of a network list as consecutive address
intervals: coversExactlyB lo l hi is true when the intervals
[mathFirst, mathLast] of l tile [lo, hi] exactly, in order, with no gap
and no overlap. -/
def coversExactlyB : Int → List IPNetwork → Int → Bool
  | lo, [], hi => decide (lo = hi + 1)
  | lo, nw :: rest, hi => decide (mathFirst nw = lo) && coversExactlyB (mathLast nw + 1) rest hi

/-- Before, then the Partition network when present, then After, as one
list. -/
def flattenPartition (p : Partition) : List IPNetwork :=
  p.Before ++ p.Partition.toList ++ p.After

/-- The number m floored to a block boundary at prefix length p within a
width-w address space: its low (w - p) bits cleared. -/
def floorAt (w p m : Nat) : Nat :=
  2 ^ (w - p) * (m / 2 ^ (w - p))

/-! Helper lemmas. -/

theorem ldiff_pred_two_pow (m k : Nat) :
    Nat.ldiff m (2 ^ k - 1) = 2 ^ k * (m / 2 ^ k) := by
  have hrw : 2 ^ k * (m / 2 ^ k) = (m >>> k) <<< k := by
    rw [Nat.shiftLeft_eq, Nat.shiftRight_eq_div_pow]; ring
  apply Nat.eq_of_testBit_eq
  intro i
  rw [Nat.testBit_ldiff, Nat.testBit_two_pow_sub_one, hrw,
    Nat.testBit_shiftLeft, Nat.testBit_shiftRight]
  by_cases h : i < k
  · simp [h, Nat.not_le.mpr h]
  · have hk : k ≤ i := Nat.not_lt.mp h
    simp [h, hk, Nat.add_sub_cancel' hk]

theorem clearLow_ofNat (k m : Nat) :
    clearLow k (Int.ofNat m) = Int.ofNat (2 ^ k * (m / 2 ^ k)) := by
  simp [clearLow]

/-- Validation of the clearLow embedding against the twos-complement
bitwise AND of the source line: on any non-negative number, clearing the
low k bits is exactly the AND with -(2^k). -/
theorem clearLow_eq_land (m k : Nat) :
    clearLow k (Int.ofNat m) = Int.land (Int.ofNat m) (-((2 : Int) ^ k)) := by
  have h1 : (-((2 : Int) ^ k)) = Int.negSucc (2 ^ k - 1) := by
    rw [Int.negSucc_eq]
    have h2 : (1 : Nat) ≤ 2 ^ k := Nat.one_le_two_pow
    push_cast [h2]
    ring
  have h3 : Int.land (Int.ofNat m) (Int.negSucc (2 ^ k - 1)) =
      Int.ofNat (Nat.ldiff m (2 ^ k - 1)) := rfl
  rw [h1, h3, ldiff_pred_two_pow, clearLow_ofNat]

theorem floorAt_self (w m : Nat) : floorAt w w m = m := by
  simp [floorAt]

theorem floorAt_idem (w p m : Nat) : floorAt w p (floorAt w p m) = floorAt w p m := by
  unfold floorAt
  rw [Nat.mul_div_cancel_left _ (Nat.pos_pow_of_pos _ (by norm_num))]

theorem floorAt_compose (w : Nat) {q p : Nat} (h : q ≤ p) (m : Nat) :
    floorAt w q (floorAt w p m) = floorAt w q m := by
  unfold floorAt
  have hab : w - p ≤ w - q := Nat.sub_le_sub_left h w
  have hsplit : 2 ^ (w - q) = 2 ^ (w - p) * 2 ^ (w - q - (w - p)) := by
    rw [← pow_add]
    congr 1
    omega
  rw [hsplit, Nat.mul_div_mul_left _ _ (Nat.pos_pow_of_pos _ (by norm_num)),
    Nat.div_div_eq_div_mul]

theorem floorAt_le (w p m : Nat) : floorAt w p m ≤ m := by
  unfold floorAt
  rw [Nat.mul_comm]
  exact Nat.div_mul_le_self m (2 ^ (w - p))

theorem lt_floorAt_add (w p m : Nat) : m < floorAt w p m + 2 ^ (w - p) := by
  unfold floorAt
  have h1 := Nat.div_add_mod m (2 ^ (w - p))
  have h2 : m % 2 ^ (w - p) < 2 ^ (w - p) :=
    Nat.mod_lt _ (Nat.pos_pow_of_pos _ (by norm_num))
  omega

theorem floorAt_zero_of_lt {w m : Nat} (h : m < 2 ^ w) : floorAt w 0 m = 0 := by
  unfold floorAt
  simp [Nat.div_eq_of_lt (by simpa using h)]

theorem foldl_bytes_nonneg :
    ∀ (l : List Nat) (acc : Int), 0 ≤ acc →
      0 ≤ List.foldl (fun (a : Int) (b : Nat) => a * 256 + (b : Int)) acc l := by
  intro l
  induction l with
  | nil => intro acc h; simpa using h
  | cons b l ih =>
    intro acc h
    exact ih _ (by positivity)

theorem foldl_bytes_lt :
    ∀ (l : List Nat) (acc : Int), (∀ b ∈ l, b < 256) → 0 ≤ acc →
      List.foldl (fun (a : Int) (b : Nat) => a * 256 + (b : Int)) acc l <
        (acc + 1) * 256 ^ l.length := by
  intro l
  induction l with
  | nil => intro acc hb h; simp only [List.foldl_nil, List.length_nil, pow_zero, mul_one]; omega
  | cons b l ih =>
    intro acc hb h
    have hblt : (b : Int) < 256 := by
      exact_mod_cast hb b (List.mem_cons_self b l)
    have hstep := ih (acc * 256 + (b : Int)) (fun x hx => hb x (List.mem_cons_of_mem b hx))
      (by positivity)
    have hmono : (acc * 256 + (b : Int) + 1) * 256 ^ l.length ≤
        ((acc + 1) * 256) * 256 ^ l.length := by
      have h1 : acc * 256 + (b : Int) + 1 ≤ (acc + 1) * 256 := by nlinarith
      exact mul_le_mul_of_nonneg_right h1 (by positivity)
    calc List.foldl (fun (a : Int) (b : Nat) => a * 256 + (b : Int))
          (acc * 256 + (b : Int)) (b :: l).tail
        < (acc * 256 + (b : Int) + 1) * 256 ^ l.length := hstep
      _ ≤ ((acc + 1) * 256) * 256 ^ l.length := hmono
      _ = (acc + 1) * 256 ^ (b :: l).length := by rw [List.length_cons]; ring

theorem ToInt_nonneg (ip : IPAddress) : 0 ≤ ip.ToInt :=
  foldl_bytes_nonneg ip.bytes 0 le_rfl

theorem ToInt_lt_of_bytes (ip : IPAddress) (h : ∀ b ∈ ip.bytes, b < 256) :
    ip.ToInt < 256 ^ ip.bytes.length := by
  have := foldl_bytes_lt ip.bytes 0 h le_rfl
  simpa [IPAddress.ToInt] using this

/-- A well-formed address fits its version: 0 ≤ value < 2^bitLength. -/
theorem ToInt_lt_two_pow_of_WF {ip : IPAddress} {v : Version}
    (hwf : ip.WF) (hv : ip.version = some v) :
    ip.ToInt < 2 ^ v.bitLength := by
  obtain ⟨hb, hcase⟩ := hwf
  have hlt := ToInt_lt_of_bytes ip hb
  rcases hcase with ⟨hlen, htag⟩ | ⟨hlen, htag⟩ <;>
    rw [htag] at hv <;> injection hv with hv <;> subst hv <;> rw [hlen] at hlt <;>
    exact hlt.trans_eq (by norm_num [Version.bitLength])

/-- A well-formed address computes the version stored in its tag. -/
theorem computedVersion_of_WF {ip : IPAddress} {v : Version}
    (hwf : ip.WF) (hv : ip.version = some v) :
    ip.computedVersion = some v := by
  obtain ⟨hb, hcase⟩ := hwf
  rcases hcase with ⟨hlen, htag⟩ | ⟨hlen, htag⟩ <;> rw [htag] at hv <;> cases hv <;>
    simp [IPAddress.computedVersion, hlen]

theorem natBytesAux_foldl :
    ∀ (fuel n : Nat) (acc : Int), n ≤ fuel →
      List.foldl (fun (a : Int) (b : Nat) => a * 256 + (b : Int)) acc (natBytesAux fuel n) =
        acc * 256 ^ (natBytesAux fuel n).length + n := by
  intro fuel
  induction fuel with
  | zero =>
    intro n acc h
    have hn : n = 0 := Nat.le_zero.mp h
    simp [natBytesAux, hn]
  | succ fuel ih =>
    intro n acc h
    by_cases hn : n = 0
    · simp [natBytesAux, hn]
    · have hdiv : n / 256 ≤ fuel := by
        have := Nat.div_lt_self (Nat.pos_of_ne_zero hn) (by norm_num : (1 : Nat) < 256)
        omega
      have hmod : 256 * (n / 256) + n % 256 = n := Nat.div_add_mod n 256
      have hcast : (256 : Int) * ((n / 256 : Nat) : Int) + ((n % 256 : Nat) : Int) = (n : Int) := by
        exact_mod_cast hmod
      simp only [natBytesAux, hn, if_false, List.foldl_append, List.foldl_cons,
        List.foldl_nil, List.length_append, List.length_cons, List.length_nil]
      rw [ih (n / 256) acc hdiv, pow_succ]
      linear_combination hcast

theorem natBytesAux_length :
    ∀ (fuel n k : Nat), n ≤ fuel → n < 256 ^ k → (natBytesAux fuel n).length ≤ k := by
  intro fuel
  induction fuel with
  | zero =>
    intro n k h hk
    have hn : n = 0 := Nat.le_zero.mp h
    simp [natBytesAux, hn]
  | succ fuel ih =>
    intro n k h hk
    by_cases hn : n = 0
    · simp [natBytesAux, hn]
    · cases k with
      | zero =>
        have := Nat.pos_of_ne_zero hn
        simp only [pow_zero] at hk
        omega
      | succ k =>
        have hdiv : n / 256 ≤ fuel := by
          have := Nat.div_lt_self (Nat.pos_of_ne_zero hn) (by norm_num : (1 : Nat) < 256)
          omega
        have hdivlt : n / 256 < 256 ^ k := by
          apply Nat.div_lt_of_lt_mul
          calc n < 256 ^ (k + 1) := hk
            _ = 256 * 256 ^ k := by rw [pow_succ]; ring
        have := ih (n / 256) k hdiv hdivlt
        simp only [natBytesAux, hn, if_false, List.length_append, List.length_cons,
          List.length_nil]
        omega

theorem copyTail_of_le {len : Nat} {src : List Nat} (h : src.length ≤ len) :
    copyTail len src = List.replicate (len - src.length) 0 ++ src := by
  unfold copyTail
  rw [Nat.sub_eq_zero_of_le h, List.drop_zero]

theorem foldl_replicate_zero (k : Nat) :
    List.foldl (fun (a : Int) (b : Nat) => a * 256 + (b : Int)) 0 (List.replicate k 0) = 0 := by
  induction k with
  | zero => rfl
  | succ k ih => simpa [List.replicate_succ] using ih

/-- The value of the minimal byte representation. -/
theorem natBytes_value (n : Nat) :
    List.foldl (fun (a : Int) (b : Nat) => a * 256 + (b : Int)) 0 (natBytes n) = n := by
  have := natBytesAux_foldl n n 0 le_rfl
  simpa [natBytes] using this

/-- Integer-to-address conversion round-trips in value for every number
below 2^32: the minimal representation has at most four bytes, so
whichever buffer length ValidIPV4 selects, the bytes are only padded
with leading zeros, never truncated. -/
theorem toInt_toIPAddress_small {n : Int} (h0 : 0 ≤ n) (h : n < 2 ^ 32) :
    (ToIPAddress n).ToInt = n := by
  have hlen : (natBytes n.natAbs).length ≤ 4 := by
    apply natBytesAux_length n.natAbs n.natAbs 4 le_rfl
    have : (256 : Nat) ^ 4 = 2 ^ 32 := by norm_num
    rw [this]
    omega
  have hval : List.foldl (fun (a : Int) (b : Nat) => a * 256 + (b : Int)) 0
      (natBytes n.natAbs) = n := by
    rw [natBytes_value]
    omega
  unfold ToIPAddress
  cases hb : ValidIPV4 (natBytes n.natAbs)
  · simp only [hb, Bool.false_eq_true, if_false, IPAddress.ToInt]
    rw [copyTail_of_le (hlen.trans (by norm_num))]
    rw [List.foldl_append, foldl_replicate_zero, hval]
  · simp only [hb, if_true, IPAddress.ToInt]
    rw [copyTail_of_le hlen]
    rw [List.foldl_append, foldl_replicate_zero, hval]

/-- Full characterization of the widening loop of newNetworkFromBoundaries.
Entering at prefix length p with a value already floored at p, the loop
returns a prefix length q ≤ p and the entry value floored at q; it stops
exactly when the floored value no longer exceeds the lower bound (or q
hits zero), and every prefix length it passed through strictly exceeded
the lower bound after flooring. -/
theorem boundariesLoop_spec (low : Int) (w : Nat) :
    ∀ (p m : Nat), p ≤ w → floorAt w p m = m →
      ∃ q : Nat,
        boundariesLoop low w p (Int.ofNat m) = (q, Int.ofNat (floorAt w q m)) ∧
        q ≤ p ∧
        (Int.ofNat (floorAt w q m) ≤ low ∨ q = 0) ∧
        ∀ j : Nat, q < j → j ≤ p → low < Int.ofNat (floorAt w j m) := by
  intro p
  induction p with
  | zero =>
    intro m hp hm
    refine ⟨0, ?_, le_rfl, Or.inr rfl, ?_⟩
    · simp [boundariesLoop, hm]
    · intro j h1 h2
      omega
  | succ p ih =>
    intro m hp hm
    by_cases hlt : low < Int.ofNat m
    · have hstep : boundariesLoop low w (p + 1) (Int.ofNat m) =
          boundariesLoop low w p (Int.ofNat (floorAt w p m)) := by
        simp only [boundariesLoop, if_pos hlt, clearLow_ofNat]
        rfl
      have hfix : floorAt w p (floorAt w p m) = floorAt w p m := floorAt_idem w p m
      obtain ⟨q, hq, hqle, hexit, hinv⟩ := ih (floorAt w p m) (by omega) hfix
      have hcomp : ∀ j, j ≤ p → floorAt w j (floorAt w p m) = floorAt w j m :=
        fun j hj => floorAt_compose w hj m
      refine ⟨q, ?_, by omega, ?_, ?_⟩
      · rw [hstep, hq, hcomp q hqle]
      · rw [hcomp q hqle] at hexit
        exact hexit
      · intro j h1 h2
        rcases Nat.lt_or_ge j (p + 1) with hj | hj
        · have := hinv j h1 (by omega)
          rwa [hcomp j (by omega)] at this
        · have hj2 : j = p + 1 := by omega
          rw [hj2, hm]
          exact hlt
    · refine ⟨p + 1, ?_, le_rfl, Or.inl (by rw [hm]; exact not_lt.mp hlt), ?_⟩
      · have hrun : boundariesLoop low w (p + 1) (Int.ofNat m) = (p + 1, Int.ofNat m) := by
          simp only [boundariesLoop, if_neg hlt]
        rw [hrun, hm]
      · intro j h1 h2
        omega

/-- Claim C3: for every pair of same-version well-formed addresses with
first ≤ last, newNetworkFromBoundaries succeeds and returns a network
whose range contains [first, last]; the network is an aligned block of
its version, and among all aligned blocks whose range contains
[first, last] its prefix length is maximal, with the block at that
prefix length unique. -/
theorem C3_newNetworkFromBoundaries
    (first last : IPAddress) (v : Version)
    (hwf1 : first.WF) (hwf2 : last.WF)
    (hv1 : first.version = some v) (hv2 : last.version = some v)
    (hle : first.ToInt ≤ last.ToInt) :
    ∃ nw : IPNetwork,
      newNetworkFromBoundaries first last = some nw ∧
      nw.version = v ∧ nw.Mask.bits = v.bitLength ∧ nw.Mask.ones ≤ v.bitLength ∧
      nw.start ≤ first.ToInt ∧ last.ToInt ≤ mathLast nw ∧
      (2 ^ (v.bitLength - nw.Mask.ones) : Int) ∣ nw.start ∧
      ∀ (p : Nat) (s : Int), p ≤ v.bitLength →
        (2 ^ (v.bitLength - p) : Int) ∣ s →
        s ≤ first.ToInt → last.ToInt ≤ s + 2 ^ (v.bitLength - p) - 1 →
        p ≤ nw.Mask.ones ∧ (p = nw.Mask.ones → s = nw.start) := by
  have hc1 : first.computedVersion = some v := computedVersion_of_WF hwf1 hv1
  have hc2 : last.computedVersion = some v := computedVersion_of_WF hwf2 hv2
  set w := v.bitLength with hw
  set nL := last.ToInt.toNat with hnL
  have hLnn : (0 : Int) ≤ last.ToInt := ToInt_nonneg last
  have hFnn : (0 : Int) ≤ first.ToInt := ToInt_nonneg first
  have hLcast : (nL : Int) = last.ToInt := Int.toNat_of_nonneg hLnn
  have hLbound : nL < 2 ^ w := by
    have h1 : last.ToInt < 2 ^ w := ToInt_lt_two_pow_of_WF hwf2 hv2
    zify
    rw [hLcast]
    exact_mod_cast h1
  obtain ⟨q, hq, hqle, hexit, hinv⟩ :=
    boundariesLoop_spec first.ToInt w w nL le_rfl (floorAt_self w nL)
  have hrun : newNetworkFromBoundaries first last =
      some { start := Int.ofNat (floorAt w q nL), version := v,
             Mask := { ones := q, bits := w } } := by
    simp only [newNetworkFromBoundaries, hc1, hc2, if_pos rfl]
    rw [show last.ToInt = Int.ofNat nL by rw [Int.ofNat_eq_natCast, hLcast]]
    rw [hq]
    simp
  refine ⟨_, hrun, rfl, rfl, hqle, ?_, ?_, ?_, ?_⟩
  · -- start ≤ first
    rcases hexit with hstop | hzero
    · exact hstop
    · show Int.ofNat (floorAt w q nL) ≤ first.ToInt
      rw [hzero, floorAt_zero_of_lt hLbound]
      exact hFnn
  · -- last ≤ mathLast
    have h1 : nL < floorAt w q nL + 2 ^ (w - q) := lt_floorAt_add w q nL
    have h2 : (nL : Int) < ((floorAt w q nL : Nat) : Int) + ((2 ^ (w - q) : Nat) : Int) := by
      exact_mod_cast h1
    push_cast at h2
    show last.ToInt ≤ Int.ofNat (floorAt w q nL) +
      2 ^ ((⟨q, w⟩ : IPMask).bits - (⟨q, w⟩ : IPMask).ones) - 1
    simp only [mathLast, IPNetwork.Length, IPMask.Length, Int.ofNat_eq_natCast]
    rw [← hLcast]
    linarith
  · -- alignment
    show (2 ^ (w - q) : Int) ∣ Int.ofNat (floorAt w q nL)
    rw [Int.ofNat_eq_natCast, floorAt]
    push_cast
    exact Dvd.intro _ rfl
  · -- maximality and uniqueness
    intro p s hpw hdvd hsle hles
    have hpow : (0 : Int) < 2 ^ (w - p) := by positivity
    obtain ⟨t, ht⟩ := hdvd
    have ht0 : 0 ≤ t := by
      by_contra hneg
      push_neg at hneg
      have h8 : t ≤ -1 := by omega
      have h7 : s ≤ -2 ^ (w - p) := by
        calc s = 2 ^ (w - p) * t := ht
          _ ≤ 2 ^ (w - p) * (-1) := mul_le_mul_of_nonneg_left h8 (le_of_lt hpow)
          _ = -2 ^ (w - p) := by ring
      linarith
    have hs0 : 0 ≤ s := by
      rw [ht]
      exact mul_nonneg (le_of_lt hpow) ht0
    set tN := t.toNat with htNdef
    have htcast : (tN : Int) = t := Int.toNat_of_nonneg ht0
    have hscast : ((2 ^ (w - p) * tN : Nat) : Int) = s := by
      push_cast
      rw [htcast, ← ht]
    push_cast at hscast
    have hdist : (2 : Int) ^ (w - p) * ((tN : Int) + 1) =
        (2 : Int) ^ (w - p) * (tN : Int) + 2 ^ (w - p) := by ring
    have hub : nL < 2 ^ (w - p) * (tN + 1) := by
      have h3 : (nL : Int) < ((2 ^ (w - p) * (tN + 1) : Nat) : Int) := by
        push_cast
        rw [hLcast]
        linarith
      exact_mod_cast h3
    have hlb : 2 ^ (w - p) * tN ≤ nL := by
      have h3 : ((2 ^ (w - p) * tN : Nat) : Int) ≤ (nL : Int) := by
        push_cast
        rw [hscast, hLcast]
        exact hsle.trans hle
      exact_mod_cast h3
    have hfloor : floorAt w p nL = 2 ^ (w - p) * tN := by
      rw [floorAt, Nat.div_eq_of_lt_le (by rw [Nat.mul_comm]; exact hlb)
        (by rw [Nat.mul_comm]; exact hub)]
    have hple : p ≤ q := by
      by_contra hgt
      have h6 := hinv p (by omega) hpw
      rw [Int.ofNat_eq_natCast, hfloor] at h6
      push_cast at h6
      rw [hscast] at h6
      linarith
    refine ⟨hple, fun hpq => ?_⟩
    have hpq2 : p = q := hpq
    show s = Int.ofNat (floorAt w q nL)
    rw [Int.ofNat_eq_natCast, ← hpq2, hfloor]
    push_cast
    rw [hscast]

/-- The bisection loop of Partition, entered at prefix length p ≤ e + 1
with enough fuel, emits exactly one network per prefix length from p to
e and then stops: it returns its accumulators extended by e + 1 - p
networks in total.  In particular it never exhausts its fuel. -/
theorem partitionLoop_spec (w e : Nat) (x : Int) (ver : Version) (he : e ≤ w) :
    ∀ (fuel p : Nat) (iL iU : Int) (l r : List IPNetwork),
      p ≤ e + 1 → e + 1 - p < fuel →
      ∃ l2 r2, partitionLoop w e x ver fuel p iL iU l r = some (l ++ l2, r ++ r2) ∧
        l2.length + r2.length = e + 1 - p := by
  intro fuel
  induction fuel with
  | zero =>
    intro p iL iU l r hp hf
    exact absurd hf (Nat.not_lt_zero _)
  | succ fuel ih =>
    intro p iL iU l r hp hf
    by_cases hep : e < p
    · refine ⟨[], [], ?_, by simp only [List.length_nil]; omega⟩
      simp [partitionLoop, hep]
    · by_cases hemit : iU ≤ x <;> by_cases hw2 : w < p + 1
      · -- lower half emitted, width ceiling reached: p = e
        refine ⟨[emittedNetwork ver p iL], [], ?_, ?_⟩
        · simp [partitionLoop, hep, hemit, hw2]
        · simp only [List.length_cons, List.length_nil]
          omega
      · -- lower half emitted, loop continues at p + 1
        obtain ⟨l2, r2, hrec, hcount⟩ := ih (p + 1) iU (iU + 2 ^ (w - (p + 1)))
          (l ++ [emittedNetwork ver p iL]) r (by omega) (by omega)
        refine ⟨emittedNetwork ver p iL :: l2, r2, ?_, ?_⟩
        · have hstep : partitionLoop w e x ver (fuel + 1) p iL iU l r =
              partitionLoop w e x ver fuel (p + 1) iU (iU + 2 ^ (w - (p + 1)))
                (l ++ [emittedNetwork ver p iL]) r := by
            simp [partitionLoop, hep, hemit, hw2]
          rw [hstep, hrec]
          simp
        · simp only [List.length_cons]
          omega
      · -- upper half emitted, width ceiling reached: p = e
        refine ⟨[], [emittedNetwork ver p iU], ?_, ?_⟩
        · simp [partitionLoop, hep, hemit, hw2]
        · simp only [List.length_cons, List.length_nil]
          omega
      · -- upper half emitted, loop continues at p + 1
        obtain ⟨l2, r2, hrec, hcount⟩ := ih (p + 1) iL (iL + 2 ^ (w - (p + 1))) l
          (r ++ [emittedNetwork ver p iU]) (by omega) (by omega)
        refine ⟨l2, emittedNetwork ver p iU :: r2, ?_, ?_⟩
        · have hstep : partitionLoop w e x ver (fuel + 1) p iL iU l r =
              partitionLoop w e x ver fuel (p + 1) iL (iL + 2 ^ (w - (p + 1))) l
                (r ++ [emittedNetwork ver p iU]) := by
            simp [partitionLoop, hep, hemit, hw2]
          rw [hstep, hrec]
          simp
        · simp only [List.length_cons]
          omega

/-- Claim C8: whenever Partition reaches its general bisection case, the
loop terminates without exhausting the fuel the embedding gives it, and
it performs exactly exclude.PrefixLength - target.PrefixLength
iterations, one emitted network per iteration, a count bounded by the bit
width of the version. -/
theorem C8_partition_terminates (nw exclude : IPNetwork)
    (hc1 : ¬ (exclude.Last).ToInt < (nw.First).ToInt)
    (hc2 : ¬ (nw.Last).ToInt < (exclude.First).ToInt)
    (hlt : nw.PrefixLength < exclude.PrefixLength)
    (hwf : exclude.PrefixLength ≤ nw.version.bitLength) :
    ∃ left right : List IPNetwork,
      partitionLoop nw.version.bitLength exclude.PrefixLength ((exclude.First).ToInt)
          exclude.version (nw.version.bitLength + 2) (nw.PrefixLength + 1)
          ((nw.First).ToInt)
          ((nw.First).ToInt + 2 ^ (nw.version.bitLength - (nw.PrefixLength + 1))) [] [] =
        some (left, right) ∧
      nw.Partition exclude =
        { Before := left, Partition := some exclude, After := right.reverse } ∧
      left.length + right.length = exclude.PrefixLength - nw.PrefixLength ∧
      exclude.PrefixLength - nw.PrefixLength ≤ nw.version.bitLength := by
  obtain ⟨l2, r2, hrun, hcount⟩ := partitionLoop_spec nw.version.bitLength
    exclude.PrefixLength ((exclude.First).ToInt) exclude.version hwf
    (nw.version.bitLength + 2) (nw.PrefixLength + 1) ((nw.First).ToInt)
    ((nw.First).ToInt + 2 ^ (nw.version.bitLength - (nw.PrefixLength + 1)))
    [] [] (by omega) (by omega)
  simp only [List.nil_append] at hrun
  have hc3 : ¬ exclude.PrefixLength ≤ nw.PrefixLength := by omega
  refine ⟨l2, r2, hrun, ?_, by omega, by omega⟩
  simp only [IPNetwork.Partition, if_neg hc1, if_neg hc2, if_neg hc3]
  rw [hrun]

/-- Claim C8 witness: the general case at 1.1.2.0/23 against 1.1.3.0/32
runs 32 - 23 = 9 iterations, within the 32-bit width. -/
theorem C8_partition_terminates_witness :
    ∃ left right : List IPNetwork,
      IPNetwork.Partition ⟨0x01010200, Version.v4, ⟨23, 32⟩⟩
          ⟨0x01010300, Version.v4, ⟨32, 32⟩⟩ =
        { Before := left, Partition := some ⟨0x01010300, Version.v4, ⟨32, 32⟩⟩,
          After := right.reverse } ∧
      left.length + right.length = 32 - 23 ∧
      (32 : Nat) - 23 ≤ Version.v4.bitLength := by
  obtain ⟨left, right, hrun, hpart, hcount, hbound⟩ :=
    C8_partition_terminates ⟨0x01010200, .v4, ⟨23, 32⟩⟩ ⟨0x01010300, .v4, ⟨32, 32⟩⟩
      (by decide) (by decide) (by decide) (by decide)
  exact ⟨left, right, hpart, hcount, hbound⟩

/-- Claim C4: the edge cases of Partition fire in source order: an
exclusion wholly below the target returns After = [target]; otherwise an
exclusion wholly above returns Before = [target]; otherwise a target at
least as specific as the exclusion is returned whole as the Partition
network. -/
theorem C4_partition_edge_cases (nw exclude : IPNetwork) :
    ((exclude.Last).ToInt < (nw.First).ToInt →
      nw.Partition exclude = { Before := [], Partition := none, After := [nw] }) ∧
    (¬ (exclude.Last).ToInt < (nw.First).ToInt →
      (nw.Last).ToInt < (exclude.First).ToInt →
      nw.Partition exclude = { Before := [nw], Partition := none, After := [] }) ∧
    (¬ (exclude.Last).ToInt < (nw.First).ToInt →
      ¬ (nw.Last).ToInt < (exclude.First).ToInt →
      exclude.PrefixLength ≤ nw.PrefixLength →
      nw.Partition exclude = { Before := [], Partition := some nw, After := [] }) := by
  refine ⟨fun h1 => ?_, fun h1 h2 => ?_, fun h1 h2 h3 => ?_⟩
  · simp [IPNetwork.Partition, h1]
  · simp [IPNetwork.Partition, h1, h2]
  · simp [IPNetwork.Partition, h1, h2, h3]

/-- Claim C4 witness: each edge case at a concrete pair, 1.1.2.0/24
against 1.0.0.0/32 (below), 2.0.0.0/32 (above), and itself (as
specific). -/
theorem C4_partition_edge_cases_witness :
    IPNetwork.Partition ⟨0x01010200, Version.v4, ⟨24, 32⟩⟩ ⟨0x01000000, Version.v4, ⟨32, 32⟩⟩ =
      { Before := [], Partition := none, After := [⟨0x01010200, Version.v4, ⟨24, 32⟩⟩] } ∧
    IPNetwork.Partition ⟨0x01010200, Version.v4, ⟨24, 32⟩⟩ ⟨0x02000000, Version.v4, ⟨32, 32⟩⟩ =
      { Before := [⟨0x01010200, Version.v4, ⟨24, 32⟩⟩], Partition := none, After := [] } ∧
    IPNetwork.Partition ⟨0x01010200, Version.v4, ⟨24, 32⟩⟩ ⟨0x01010200, Version.v4, ⟨24, 32⟩⟩ =
      { Before := [], Partition := some ⟨0x01010200, Version.v4, ⟨24, 32⟩⟩, After := [] } :=
  ⟨(C4_partition_edge_cases _ _).1 (by decide),
   (C4_partition_edge_cases _ _).2.1 (by decide) (by decide),
   (C4_partition_edge_cases _ _).2.2 (by decide) (by decide) (by decide)⟩

/-- The receiver of Increment after the call: either untouched, or its
bytes overwritten with the conversion of the incremented value while the
version tag is kept. -/
theorem Increment_snd (ip : IPAddress) (val : Int) :
    (ip.Increment val).2 = ip ∨
    ((ip.Increment val).2.bytes = (ToIPAddress (ip.ToInt + val)).bytes ∧
      (ip.Increment val).2.version = ip.version) := by
  unfold IPAddress.Increment
  by_cases h0 : ip.ToInt = 0
  · simp [h0]
  · by_cases hb : 0 ≤ ip.ToInt + val ∧ ip.ToInt + val ≤ versionMax ip.computedVersion
    · right
      simp [h0, hb]
    · left
      simp [h0, hb]

/-- Claim C6 counterexample: incrementing the address 0.0.0.0 (integer
value 0) by -1 drives the value below 0, yet Increment reports no error
and returns the address unchanged, because of its early return for a
zero value.  The claim predicts the AddressOutOfBounds error here. -/
theorem C6_increment_counterexample :
    (⟨[0, 0, 0, 0], some Version.v4⟩ : IPAddress).ToInt + (-1) < 0 ∧
    (IPAddress.Increment ⟨[0, 0, 0, 0], some Version.v4⟩ (-1)).1 =
      some ⟨[0, 0, 0, 0], some Version.v4⟩ := by
  decide

/-- Claim C6 as amended: for a well-formed address of nonzero integer
value, Increment errors exactly when the incremented value leaves
[0, max]; within bounds it succeeds with an address carrying the bytes
of the integer-to-address conversion of the incremented value and the
original version tag, and for IPv4 that address has integer value
exactly a + v.  For a zero-valued address Increment returns the address
unchanged with no error, whatever the increment. -/
theorem C6_increment_amended (ip : IPAddress) (v : Version) (val : Int)
    (hwf : ip.WF) (hv : ip.version = some v) :
    (ip.ToInt = 0 → ip.Increment val = (some ip, ip)) ∧
    (ip.ToInt ≠ 0 →
      (((ip.Increment val).1 = none) ↔
        (ip.ToInt + val < 0 ∨ v.maxAddr < ip.ToInt + val)) ∧
      (0 ≤ ip.ToInt + val → ip.ToInt + val ≤ v.maxAddr →
        ∃ res, ip.Increment val = (some res, res) ∧
          res.bytes = (ToIPAddress (ip.ToInt + val)).bytes ∧
          res.version = ip.version ∧
          (v = .v4 → res.ToInt = ip.ToInt + val))) := by
  have hcv : ip.computedVersion = some v := computedVersion_of_WF hwf hv
  have hmax : versionMax ip.computedVersion = v.maxAddr := by
    rw [hcv]
    rfl
  constructor
  · intro h0
    simp [IPAddress.Increment, h0]
  · intro hne
    constructor
    · constructor
      · intro hnone
        by_contra hcon
        push_neg at hcon
        have hb : 0 ≤ ip.ToInt + val ∧ ip.ToInt + val ≤ versionMax ip.computedVersion := by
          rw [hmax]
          exact ⟨hcon.1, hcon.2⟩
        simp [IPAddress.Increment, hne, hb] at hnone
      · intro hoob
        have hnb : ¬ (0 ≤ ip.ToInt + val ∧ ip.ToInt + val ≤ versionMax ip.computedVersion) := by
          rw [hmax]
          omega
        simp [IPAddress.Increment, hne, hnb]
    · intro hlo hhi
      have hb : 0 ≤ ip.ToInt + val ∧ ip.ToInt + val ≤ versionMax ip.computedVersion := by
        rw [hmax]
        exact ⟨hlo, hhi⟩
      refine ⟨IPAddress.mk (ToIPAddress (ip.ToInt + val)).bytes ip.version,
        ?_, rfl, rfl, ?_⟩
      · simp [IPAddress.Increment, hne, hb]
      · intro hv4
        subst hv4
        have hsame : (IPAddress.mk (ToIPAddress (ip.ToInt + val)).bytes ip.version).ToInt =
            (ToIPAddress (ip.ToInt + val)).ToInt := rfl
        rw [hsame]
        apply toInt_toIPAddress_small hlo
        have h32 : Version.maxAddr .v4 = 2 ^ 32 - 1 := by
          norm_num [Version.maxAddr, Version.bitLength]
        omega

/-- Claim C6 witness: incrementing 1.1.1.1 by 1 succeeds with value
1.1.1.2, through the amended theorem. -/
theorem C6_increment_amended_witness :
    ∃ res, IPAddress.Increment ⟨[1, 1, 1, 1], some Version.v4⟩ 1 = (some res, res) ∧
      res.bytes = (ToIPAddress ((⟨[1, 1, 1, 1], some Version.v4⟩ : IPAddress).ToInt + 1)).bytes ∧
      res.version = some Version.v4 ∧
      res.ToInt = (⟨[1, 1, 1, 1], some Version.v4⟩ : IPAddress).ToInt + 1 := by
  have h := (C6_increment_amended ⟨[1, 1, 1, 1], some .v4⟩ .v4 1 (by decide) rfl).2 (by decide)
  obtain ⟨res, h1, h2, h3, h4⟩ := h.2 (by decide) (by decide)
  exact ⟨res, h1, h2, h3, h4 rfl⟩

/-- Claim C7 counterexample: IPRangeToCIDRS(IPv4, 1.1.1.0, 1.1.2.255)
mutates both of its address arguments in place: after the call the start
address holds the bytes of 1.1.0.255 and the end address the bytes of
1.1.3.0.  The claim says both hold their original byte content. -/
theorem C7_mutation_counterexample :
    (IPRangeToCIDRS .v4 ⟨[1, 1, 1, 0], some .v4⟩ ⟨[1, 1, 2, 255], some .v4⟩).2.1 ≠
      ⟨[1, 1, 1, 0], some .v4⟩ ∧
    (IPRangeToCIDRS .v4 ⟨[1, 1, 1, 0], some .v4⟩ ⟨[1, 1, 2, 255], some .v4⟩).2.1.bytes =
      [1, 1, 0, 255] ∧
    (IPRangeToCIDRS .v4 ⟨[1, 1, 1, 0], some .v4⟩ ⟨[1, 1, 2, 255], some .v4⟩).2.2.bytes =
      [1, 1, 3, 0] := by
  decide

/-- Claim C7 as amended: IPRangeToCIDRS leaves each address argument
either untouched, or overwritten in place through Increment: the start
address with the bytes of the conversion of start - 1 (low overshoot
trim) and the stop address with the bytes of the conversion of stop + 1
(high overshoot trim), the version tags kept. -/
theorem C7_mutation_amended (version : Version) (start stop : IPAddress) :
    ((IPRangeToCIDRS version start stop).2.1 = start ∨
      ((IPRangeToCIDRS version start stop).2.1.bytes =
          (ToIPAddress (start.ToInt - 1)).bytes ∧
        (IPRangeToCIDRS version start stop).2.1.version = start.version)) ∧
    ((IPRangeToCIDRS version start stop).2.2 = stop ∨
      ((IPRangeToCIDRS version start stop).2.2.bytes =
          (ToIPAddress (stop.ToInt + 1)).bytes ∧
        (IPRangeToCIDRS version start stop).2.2.version = stop.version)) := by
  have hs1 := Increment_snd start (-1)
  have he1 : start.ToInt + (-1) = start.ToInt - 1 := by ring
  rw [he1] at hs1
  have hs2 := Increment_snd stop 1
  unfold IPRangeToCIDRS
  cases hb : newNetworkFromBoundaries start stop with
  | none => exact ⟨Or.inl rfl, Or.inl rfl⟩
  | some subnet0 =>
    cases hi1 : start.Increment (-1) with
    | mk o1 s1 =>
    rw [hi1] at hs1
    cases hi2 : stop.Increment 1 with
    | mk o2 s2 =>
    rw [hi2] at hs2
    simp only at hs1 hs2
    dsimp only
    by_cases h2 : (subnet0.First).ToInt < start.ToInt
    · rw [if_pos h2]
      cases o1 with
      | none => exact ⟨Or.inl rfl, Or.inl rfl⟩
      | some a =>
        dsimp only
        cases hgl : ((subnet0.Partition (newNetworkFromIP version s1)).After).getLast? with
        | none =>
          dsimp only
          by_cases h3 : stop.ToInt < (subnet0.Last).ToInt
          · rw [if_pos h3]
            cases o2 with
            | none => exact ⟨hs1, hs2⟩
            | some b => exact ⟨hs1, hs2⟩
          · rw [if_neg h3]
            exact ⟨hs1, Or.inl rfl⟩
        | some lastNw =>
          dsimp only
          by_cases h3 : stop.ToInt < (lastNw.Last).ToInt
          · rw [if_pos h3]
            cases o2 with
            | none => exact ⟨hs1, hs2⟩
            | some b => exact ⟨hs1, hs2⟩
          · rw [if_neg h3]
            exact ⟨hs1, Or.inl rfl⟩
    · rw [if_neg h2]
      dsimp only
      by_cases h3 : stop.ToInt < (subnet0.Last).ToInt
      · rw [if_pos h3]
        cases o2 with
        | none => exact ⟨Or.inl rfl, hs2⟩
        | some b => exact ⟨Or.inl rfl, hs2⟩
      · rw [if_neg h3]
        exact ⟨Or.inl rfl, Or.inl rfl⟩

/-- Claim C3 witness: the boundaries 10.0.0.0 and 10.255.255.255 produce
the unique maximal covering network 10.0.0.0/8. -/
theorem C3_newNetworkFromBoundaries_witness :
    ∃ nw : IPNetwork,
      newNetworkFromBoundaries ⟨[10, 0, 0, 0], some Version.v4⟩
          ⟨[10, 255, 255, 255], some Version.v4⟩ = some nw ∧
      nw.version = Version.v4 ∧ nw.Mask.bits = Version.v4.bitLength ∧
      nw.Mask.ones ≤ Version.v4.bitLength ∧
      nw.start ≤ (⟨[10, 0, 0, 0], some Version.v4⟩ : IPAddress).ToInt ∧
      (⟨[10, 255, 255, 255], some Version.v4⟩ : IPAddress).ToInt ≤ mathLast nw ∧
      (2 ^ (Version.v4.bitLength - nw.Mask.ones) : Int) ∣ nw.start ∧
      ∀ (p : Nat) (s : Int), p ≤ Version.v4.bitLength →
        (2 ^ (Version.v4.bitLength - p) : Int) ∣ s →
        s ≤ (⟨[10, 0, 0, 0], some Version.v4⟩ : IPAddress).ToInt →
        (⟨[10, 255, 255, 255], some Version.v4⟩ : IPAddress).ToInt ≤
          s + 2 ^ (Version.v4.bitLength - p) - 1 →
        p ≤ nw.Mask.ones ∧ (p = nw.Mask.ones → s = nw.start) :=
  C3_newNetworkFromBoundaries ⟨[10, 0, 0, 0], some Version.v4⟩
    ⟨[10, 255, 255, 255], some Version.v4⟩ Version.v4
    (by decide) (by decide) rfl rfl (by decide)

/-- Claim C9: the partition of 1.1.2.0/23 around the excluded host
network 1.1.3.0/32 is exactly the fixture of the spec: Before holds
1.1.2.0/24, the Partition network is the exclusion itself, and After
lists the eight sibling blocks from 1.1.3.1/32 up to 1.1.3.128/25 in
ascending address order. -/
theorem C9_partition_scenario :
    IPNetwork.Partition ⟨0x01010200, Version.v4, ⟨23, 32⟩⟩
        ⟨0x01010300, Version.v4, ⟨32, 32⟩⟩ =
      { Before := [⟨0x01010200, Version.v4, ⟨24, 32⟩⟩]
        Partition := some ⟨0x01010300, Version.v4, ⟨32, 32⟩⟩
        After := [⟨0x01010301, Version.v4, ⟨32, 32⟩⟩, ⟨0x01010302, Version.v4, ⟨31, 32⟩⟩,
          ⟨0x01010304, Version.v4, ⟨30, 32⟩⟩, ⟨0x01010308, Version.v4, ⟨29, 32⟩⟩,
          ⟨0x01010310, Version.v4, ⟨28, 32⟩⟩, ⟨0x01010320, Version.v4, ⟨27, 32⟩⟩,
          ⟨0x01010340, Version.v4, ⟨26, 32⟩⟩, ⟨0x01010380, Version.v4, ⟨25, 32⟩⟩] } := by
  decide

/-- Claim C5 at its failing input: the IPv4 address 0.0.0.1 does not
round-trip through ToInt and ToIPAddress.  Its integer value 1 has the
one-byte minimal representation [1], which ValidIPV4 rejects as IPv4, so
the conversion returns the 16-byte IPv6 address ::1: the byte content
and the protocol version both differ from the original. -/
theorem C5_roundtrip_failing_input :
    (⟨[0, 0, 0, 1], some Version.v4⟩ : IPAddress).WF ∧
    (ToIPAddress ((⟨[0, 0, 0, 1], some Version.v4⟩ : IPAddress).ToInt)).bytes ≠
      [0, 0, 0, 1] ∧
    (ToIPAddress ((⟨[0, 0, 0, 1], some Version.v4⟩ : IPAddress).ToInt)).version ≠
      some Version.v4 := by
  decide

/-- Claim C1 at its failing input: for the IPv6 range from :: to
1111:1111:1111:1111:1111:1111:1111:1111 (a well-formed pair with
start ≤ end), IPRangeToCIDRS succeeds but returns the single network
::/3, whose range [0, 2^125 - 1] strictly exceeds the requested end, so
the union of the result is not the interval [start, end].  The high
trim never fires because subnet.Last() reads 2^125 - 1 through
ToIPAddress, whose inverted ValidIPV4 check truncates it to 32 bits. -/
theorem C1_coverage_failing_input :
    (⟨List.replicate 16 0, some Version.v6⟩ : IPAddress).WF ∧
    (⟨List.replicate 16 17, some Version.v6⟩ : IPAddress).WF ∧
    (⟨List.replicate 16 0, some Version.v6⟩ : IPAddress).ToInt ≤
      (⟨List.replicate 16 17, some Version.v6⟩ : IPAddress).ToInt ∧
    (IPRangeToCIDRS .v6 ⟨List.replicate 16 0, some Version.v6⟩
        ⟨List.replicate 16 17, some Version.v6⟩).1 =
      some [⟨0, Version.v6, ⟨3, 128⟩⟩] ∧
    (⟨List.replicate 16 17, some Version.v6⟩ : IPAddress).ToInt <
      mathLast ⟨0, Version.v6, ⟨3, 128⟩⟩ := by
  decide

/-- Claim C2 at its failing input: partitioning the IPv6 target ::/0
around the fully contained host network at
1111:1111:1111:1111:1111:1111:1111:1111/128 does not reconstruct the
target range: the loop bisects toward the 32-bit truncation of the
excluded address (its 16-byte value reads back as 0x11111111 through
ToIPAddress), so the flattened Before, Partition, After intervals leave
a gap at 0x11111111 and misplace the partition interval at the excluded
value. -/
theorem C2_partition_failing_input :
    (⟨0, Version.v6, ⟨0, 128⟩⟩ : IPNetwork).version =
      (⟨0x11111111111111111111111111111111, Version.v6, ⟨128, 128⟩⟩ : IPNetwork).version ∧
    mathFirst ⟨0, Version.v6, ⟨0, 128⟩⟩ ≤
      mathFirst ⟨0x11111111111111111111111111111111, Version.v6, ⟨128, 128⟩⟩ ∧
    mathLast ⟨0x11111111111111111111111111111111, Version.v6, ⟨128, 128⟩⟩ ≤
      mathLast ⟨0, Version.v6, ⟨0, 128⟩⟩ ∧
    coversExactlyB (mathFirst ⟨0, Version.v6, ⟨0, 128⟩⟩)
      (flattenPartition (IPNetwork.Partition ⟨0, Version.v6, ⟨0, 128⟩⟩
        ⟨0x11111111111111111111111111111111, Version.v6, ⟨128, 128⟩⟩))
      (mathLast ⟨0, Version.v6, ⟨0, 128⟩⟩) = false := by
  decide

/-- Claim C10 at its failing input: on the single-element input
[1.1.1.0/24] the backward merge loop of MergeCIDRs runs its first
iteration at i = 0 and reads ranges[i - 1] = ranges[-1], an
out-of-bounds slice access (a Go panic), recorded by the embedding as a
none result. -/
theorem C10_merge_failing_input :
    MergeCIDRs [⟨0x01010100, Version.v4, ⟨24, 32⟩⟩] = none := by
  decide

end NetAddr
